import Mathlib

/-!
Verification of the didolog hierarchical block store.

The definitions below are a shallow embedding of the store module
(src/unnamed/part_009, `Store.ts`), of the derived-view hooks
(src/src/hooks/blocksByTask.ts, src/src/hooks/blockRegistry.ts), of the
selection handlers in src/src/components/merged/WorkspaceView.svelte and of
the drag geometry in src/src/components/individual/Draggable.svelte and
DropZone.svelte.

Modelling conventions:
 * A JS object used as a keyed map (`WorkspaceStore`, `BlockStore`) is an
   association list `List (String × _)` in insertion order, which is the
   enumeration order of `Object.values`.
 * ISO timestamp strings compared through `new Date(x).getTime()` are `Nat`
   epoch values.
 * `crypto.randomUUID()` is an explicit `id` argument; theorems that rely on
   freshness of the generated id take it as a hypothesis.
 * `Array.prototype.sort` is a stable sort; it is modelled with the stable
   `List.insertionSort` from Mathlib.
-/

namespace Didolog

/-- The `type` tag of a Block (src/src/store/types.ts).  `sec` models the
source tag `"section"`; `section` is a Lean keyword. -/
inductive BlockType
  | task
  | sec
  | note
  | todo
deriving DecidableEq, Repr

/-- A Block record (src/src/store/types.ts).  The shared fields plus the
variant fields consulted by the operations under verification.  There is no
`order` field in the source data model.  Variant-only metadata fields of
`Todo` (dueDate, priorityId, labelIds, reminderIds, locationId) are never
read or written by the store operations and are elided. -/
structure Block where
  id : String
  type : BlockType
  parentId : String
  createdAt : Nat
  updatedAt : Nat
  title : String
  description : String
  isSelected : Bool
  isComplete : Bool
deriving DecidableEq, Repr

/-- A Workspace record (src/src/store/types.ts). -/
structure Workspace where
  id : String
  title : String
  description : String
  isSelected : Bool
  createdAt : Nat
  updatedAt : Nat
deriving DecidableEq, Repr

/-- `Partial<Block>` (TypeScript): every field optional.  Named
`BlockUpdate` in this development. -/
structure BlockUpdate where
  id : Option String := none
  type : Option BlockType := none
  parentId : Option String := none
  createdAt : Option Nat := none
  updatedAt : Option Nat := none
  title : Option String := none
  description : Option String := none
  isSelected : Option Bool := none
  isComplete : Option Bool := none
deriving DecidableEq, Repr

/-- The block store: a JS object keyed by id, in insertion order. -/
abbrev BlockStore := List (String × Block)

/-- The workspace store: a JS object keyed by id, in insertion order. -/
abbrev WorkspaceStore := List (String × Workspace)

/-- `store[k]` on a JS object: the value at key `k`, if present. -/
def lookupId (l : List (String × α)) (k : String) : Option α :=
  (l.find? (fun kv => decide (kv.1 = k))).map (·.2)

/-- Replace the value stored at key `k` (if present) by `f` of it.  A JS
spread `{...store, [k]: v}` with `k` already present keeps the key at its
original position, which is what mapping does. -/
def updateAt (l : List (String × α)) (k : String) (f : α → α) : List (String × α) :=
  l.map (fun kv => if kv.1 = k then (kv.1, f kv.2) else kv)

/-- `{...store, [k]: v}`: overwrite in place when `k` is present, append a
new key otherwise (JS insertion order). -/
def setKey (l : List (String × α)) (k : String) (v : α) : List (String × α) :=
  if (lookupId l k).isSome then updateAt l k (fun _ => v) else l ++ [(k, v)]

/-- The record produced by `{...b, ...u, updatedAt: now}` in `updateBlock`
(part_009 lines 76-84): every field present in `u` overwrites the old value
(including `id` and `createdAt`), and `updatedAt` is then set to `now`
unconditionally. -/
def applyUpdates (b : Block) (u : BlockUpdate) (now : Nat) : Block :=
  { id := u.id.getD b.id
    type := u.type.getD b.type
    parentId := u.parentId.getD b.parentId
    createdAt := u.createdAt.getD b.createdAt
    updatedAt := now
    title := u.title.getD b.title
    description := u.description.getD b.description
    isSelected := u.isSelected.getD b.isSelected
    isComplete := u.isComplete.getD b.isComplete }

/-- `updateBlock` (part_009 lines 76-84): `if (!blocks[id]) return blocks;`
is a silent no-op on a missing id; otherwise the record is merged in place. -/
def updateBlock (blocks : BlockStore) (id : String) (u : BlockUpdate) (now : Nat) : BlockStore :=
  match lookupId blocks id with
  | none => blocks
  | some _ => updateAt blocks id (fun b => applyUpdates b u now)

/-- The caller-supplied fields of `addBlock`:
`Omit<Block, "id" | "createdAt" | "updatedAt">`. -/
structure NewBlock where
  type : BlockType
  parentId : String
  title : String
  description : String
  isSelected : Bool
  isComplete : Bool
deriving DecidableEq, Repr

/-- The record stored by `addBlock`: `{id, createdAt: now, updatedAt: now,
...block}` (part_009 lines 61-74). -/
def mkBlock (nb : NewBlock) (id : String) (now : Nat) : Block :=
  { id := id
    type := nb.type
    parentId := nb.parentId
    createdAt := now
    updatedAt := now
    title := nb.title
    description := nb.description
    isSelected := nb.isSelected
    isComplete := nb.isComplete }

/-- `addBlock` (part_009 lines 61-74).  The source generates `id` with
`crypto.randomUUID()`; here it is an explicit argument and theorems assume
it is fresh. -/
def addBlock (blocks : BlockStore) (nb : NewBlock) (id : String) (now : Nat) : BlockStore :=
  setKey blocks id (mkBlock nb id now)

/-- `deleteBlock` (part_009 lines 86-92): `delete updatedBlocks[id]`.
Removing a missing key is a no-op in JS. -/
def deleteBlock (blocks : BlockStore) (id : String) : BlockStore :=
  blocks.filter (fun kv => decide (¬ kv.1 = id))

/-- The comparator of `blocksByTask` / `blocksByParent`:
`(a, b) => new Date(a.createdAt ?? 0).getTime() - new Date(b.createdAt ?? 0).getTime()`. -/
def byCreatedAt : Block → Block → Prop := fun a b => a.createdAt ≤ b.createdAt

instance : DecidableRel byCreatedAt := fun a b => Nat.decLe a.createdAt b.createdAt

instance : IsTotal Block byCreatedAt := ⟨fun a b => Nat.le_total a.createdAt b.createdAt⟩

instance : IsTrans Block byCreatedAt := ⟨fun _ _ _ h h2 => Nat.le_trans h h2⟩

/-- The children-of-parent projection (part_009 lines 109-114
`blocksByParent`, and src/src/hooks/blocksByTask.ts): filter
`Object.values` by `parentId`, then stable-sort ascending by `createdAt`.
Note: in part_009 the arrow function body of `blocksByParent` is a block
that never returns the derived store; the projection modelled here is the
computation inside `derived`. -/
def blocksByParent (blocks : BlockStore) (parentId : String) : List Block :=
  ((blocks.map Prod.snd).filter (fun b => decide (b.parentId = parentId))).insertionSort byCreatedAt

/-- `tasks` (part_009): `Object.values($blockStore).filter(b => b.type === "task")`. -/
def tasksOf (blocks : BlockStore) : List Block :=
  (blocks.map Prod.snd).filter (fun b => decide (b.type = BlockType.task))

/-- `selectedTask` (part_009 lines 121-123): `$tasks.find(t => t.isSelected)`,
with a non-null type assertion in the source that does not change the value:
`find` yields `undefined` (`none`) when nothing is selected. -/
def selectedTask (blocks : BlockStore) : Option Block :=
  (tasksOf blocks).find? (fun b => b.isSelected)

/-- `selectedWorkspace` (part_009 lines 56-58):
`Object.values(workspaces).find(ws => ws.isSelected)`, same non-null
assertion caveat. -/
def selectedWorkspace (ws : WorkspaceStore) : Option Workspace :=
  (ws.map Prod.snd).find? (fun w => w.isSelected)

/-- `blocksByWorkSpace` (src/src/hooks/blockRegistry.ts lines 20-26):
`if (!$selectedWorkSpace) return [];` then the children of the selected
workspace.  (The some-branch of the source calls an imported `blockByParent`
whose definition is the `blocksByParent` projection; the guard branch is the
one exercised by the claims.) -/
def blocksByWorkSpace (ws : WorkspaceStore) (blocks : BlockStore) : List Block :=
  match selectedWorkspace ws with
  | none => []
  | some w => blocksByParent blocks w.id

/-- `selectWorkspace` (WorkspaceView.svelte lines 29-45): first every other
workspace that reports `isSelected` is deselected, then the clicked id is
selected.  When `wid` is absent the final assignment in the source throws
after the deselections have already been committed; `updateAt` on an absent
key leaves the store at that same intermediate value. -/
def selectWorkspace (ws : WorkspaceStore) (wid : String) : WorkspaceStore :=
  let ws1 := ws.map (fun kv =>
    if kv.1 ≠ wid ∧ kv.2.isSelected then (kv.1, { kv.2 with isSelected := false }) else kv)
  updateAt ws1 wid (fun w => { w with isSelected := true })

/-- The partial update `{ isSelected: false }`. -/
def deselectUpdate : BlockUpdate := { isSelected := some false }

/-- The partial update `{ isSelected: true }`. -/
def selectUpdate : BlockUpdate := { isSelected := some true }

/-- `handleTaskSelect` (WorkspaceView.svelte lines 48-59): when the clicked
task differs from the currently selected one, deselect the previous task (if
any) and select the new one, both through `updateBlock`. -/
def handleTaskSelect (blocks : BlockStore) (tid : String) (now : Nat) : BlockStore :=
  match selectedTask blocks with
  | some prev =>
      if prev.id = tid then blocks
      else updateBlock (updateBlock blocks prev.id deselectUpdate now) tid selectUpdate now
  | none => updateBlock blocks tid selectUpdate now

/-- The two stores acted on by the selection handlers. -/
structure AppStores where
  workspaces : WorkspaceStore
  blocks : BlockStore
deriving DecidableEq, Repr

/-- One UI selection call. -/
inductive SelOp
  | selW (wid : String)
  | selT (tid : String) (now : Nat)
deriving DecidableEq, Repr

/-- Apply one selection call to the stores. -/
def selStep (s : AppStores) : SelOp → AppStores
  | .selW wid => { s with workspaces := selectWorkspace s.workspaces wid }
  | .selT tid now => { s with blocks := handleTaskSelect s.blocks tid now }

/-- Run a finite sequence of selection calls. -/
def runSel (s : AppStores) (ops : List SelOp) : AppStores :=
  ops.foldl selStep s

/-- The initial workspace store (part_009): one default workspace, selected.
Module-load timestamps are modelled as 0. -/
def initWorkspaces : WorkspaceStore :=
  [("default-workspace",
    { id := "default-workspace"
      title := "My Tasks"
      description := "Default workspace"
      isSelected := true
      createdAt := 0
      updatedAt := 0 })]

/-- The initial block store (part_009): one default task, selected. -/
def initBlocks : BlockStore :=
  [("default-task",
    { id := "default-task"
      type := BlockType.task
      parentId := "default-workspace"
      createdAt := 0
      updatedAt := 0
      title := "Inbox"
      description := "Default task for all new items"
      isSelected := true
      isComplete := false })]

/-- The initial store state. -/
def initState : AppStores :=
  { workspaces := initWorkspaces, blocks := initBlocks }

/-! ### Association-list lemmas -/

theorem lookupId_nil (k : String) : lookupId ([] : List (String × α)) k = none := rfl

theorem lookupId_cons (a : String × α) (l : List (String × α)) (k : String) :
    lookupId (a :: l) k = if a.1 = k then some a.2 else lookupId l k := by
  by_cases h : a.1 = k
  · simp [lookupId, List.find?_cons, h]
  · simp [lookupId, List.find?_cons, h]

theorem lookupId_updateAt_self (l : List (String × α)) (k : String) (f : α → α) :
    lookupId (updateAt l k f) k = (lookupId l k).map f := by
  induction l with
  | nil => rfl
  | cons a t ih =>
    by_cases h : a.1 = k
    · simp [updateAt, lookupId_cons, h]
    · simpa [updateAt, lookupId_cons, h] using ih

theorem lookupId_updateAt_ne (l : List (String × α)) (k k' : String) (f : α → α)
    (h : k' ≠ k) : lookupId (updateAt l k f) k' = lookupId l k' := by
  induction l with
  | nil => rfl
  | cons a t ih =>
    have hstep : updateAt (a :: t) k f =
        (if a.1 = k then (a.1, f a.2) else a) :: updateAt t k f := by
      simp [updateAt]
    rw [hstep, lookupId_cons, lookupId_cons]
    by_cases ha : a.1 = k
    · have hne : a.1 ≠ k' := by rw [ha]; exact fun hk => h hk.symm
      simp only [if_pos ha]
      rw [if_neg hne, if_neg hne]
      exact ih
    · simp only [if_neg ha]
      by_cases ha' : a.1 = k'
      · rw [if_pos ha', if_pos ha']
      · rw [if_neg ha', if_neg ha']
        exact ih

theorem map_fst_updateAt (l : List (String × α)) (k : String) (f : α → α) :
    (updateAt l k f).map Prod.fst = l.map Prod.fst := by
  induction l with
  | nil => rfl
  | cons a t ih =>
    by_cases h : a.1 = k <;> simp [updateAt, h] at ih ⊢ <;> exact ih

theorem lookupId_append (l₁ l₂ : List (String × α)) (k : String) :
    lookupId (l₁ ++ l₂) k = ((lookupId l₁ k).orElse (fun _ => lookupId l₂ k)) := by
  induction l₁ with
  | nil => simp [lookupId_nil, Option.orElse]
  | cons a t ih =>
    by_cases h : a.1 = k
    · simp [lookupId_cons, h, Option.orElse]
    · simpa [lookupId_cons, h] using ih

/-! ### C4 — updateBlock on a missing id -/

/-- A sample partial update used by concrete witnesses. -/
def titleUpdate : BlockUpdate := { title := some "renamed" }

/-- C4 counterexample: the claim states that `updateBlock` on an id absent
from the store fails with an explicit NotFound error surfaced to the caller.
It is false: the source guard `if (!blocks[id]) return blocks;` returns the
store unchanged, and the operation has no error channel at all (it returns
`void` in the source; here, just the store).  Evaluated at a concrete absent
id, the call silently leaves the store unchanged — exactly the behaviour the
claim denies. -/
theorem updateBlock_missing_silently_unchanged :
    updateBlock initBlocks "missing-id" titleUpdate 5 = initBlocks ∧
    lookupId initBlocks "missing-id" = (none : Option Block) := by
  constructor
  · decide
  · decide

/-- C4 (amended): for every id absent from the block store,
`updateBlock id u` is a silent no-op: it returns the store unchanged and
surfaces no error. -/
theorem updateBlock_absent_is_noop (blocks : BlockStore) (id : String)
    (u : BlockUpdate) (now : Nat) (h : lookupId blocks id = none) :
    updateBlock blocks id u now = blocks := by
  simp [updateBlock, h]

/-- C4 witness: the amended theorem applied at a concrete absent id. -/
theorem updateBlock_absent_is_noop_witness :
    lookupId initBlocks "missing-id" = (none : Option Block) ∧
    updateBlock initBlocks "missing-id" titleUpdate 5 = initBlocks :=
  ⟨by decide, updateBlock_absent_is_noop initBlocks "missing-id" titleUpdate 5 (by decide)⟩

/-! ### C5 — updateBlock on a present id -/

/-- A partial update carrying a `createdAt` field, as `Partial<Block>`
permits. -/
def createdAtUpdate : BlockUpdate := { createdAt := some 999 }

/-- C5 counterexample: the claim states that `updateBlock` leaves `id` and
`createdAt` unchanged even when the partial update contains those fields.
It is false: the spread `{...blocks[id], ...updates, updatedAt: now}` lets
`updates` overwrite every field it mentions.  Updating the default task with
`{ createdAt: 999 }` changes its `createdAt` from 0 to 999. -/
theorem updateBlock_overwrites_createdAt :
    (lookupId (updateBlock initBlocks "default-task" createdAtUpdate 5) "default-task").map
      Block.createdAt = some 999 ∧
    (lookupId initBlocks "default-task").map Block.createdAt = some 0 ∧
    (some 999 : Option Nat) ≠ some 0 := by
  refine ⟨by decide, by decide, by decide⟩

/-- C5 (amended): for a present id, `updateBlock` merges the partial update
into the existing record and sets `updatedAt = now`; every field not
mentioned in the update keeps its value, every field mentioned (including
`id` and `createdAt`) is overwritten, `updatedAt` from the update is
overridden by `now`, and every other record in the store is untouched. -/
theorem updateBlock_present_merges (blocks : BlockStore) (id : String)
    (u : BlockUpdate) (now : Nat) (b : Block) (h : lookupId blocks id = some b) :
    lookupId (updateBlock blocks id u now) id = some (applyUpdates b u now) ∧
    (∀ k, k ≠ id → lookupId (updateBlock blocks id u now) k = lookupId blocks k) ∧
    (applyUpdates b u now).updatedAt = now ∧
    (u.id = none → (applyUpdates b u now).id = b.id) ∧
    (u.type = none → (applyUpdates b u now).type = b.type) ∧
    (u.parentId = none → (applyUpdates b u now).parentId = b.parentId) ∧
    (u.createdAt = none → (applyUpdates b u now).createdAt = b.createdAt) ∧
    (u.title = none → (applyUpdates b u now).title = b.title) ∧
    (u.description = none → (applyUpdates b u now).description = b.description) ∧
    (u.isSelected = none → (applyUpdates b u now).isSelected = b.isSelected) ∧
    (u.isComplete = none → (applyUpdates b u now).isComplete = b.isComplete) ∧
    (∀ c, u.createdAt = some c → (applyUpdates b u now).createdAt = c) ∧
    (∀ i, u.id = some i → (applyUpdates b u now).id = i) := by
  have hbl : updateBlock blocks id u now = updateAt blocks id (fun b => applyUpdates b u now) := by
    simp [updateBlock, h]
  refine ⟨?_, ?_, rfl, ?_, ?_, ?_, ?_, ?_, ?_, ?_, ?_, ?_, ?_⟩
  · rw [hbl, lookupId_updateAt_self, h]
    rfl
  · intro k hk
    rw [hbl, lookupId_updateAt_ne _ _ _ _ hk]
  · intro hu; simp [applyUpdates, hu]
  · intro hu; simp [applyUpdates, hu]
  · intro hu; simp [applyUpdates, hu]
  · intro hu; simp [applyUpdates, hu]
  · intro hu; simp [applyUpdates, hu]
  · intro hu; simp [applyUpdates, hu]
  · intro hu; simp [applyUpdates, hu]
  · intro hu; simp [applyUpdates, hu]
  · intro c hc; simp [applyUpdates, hc]
  · intro i hi; simp [applyUpdates, hi]

/-- C5 witness: the amended theorem applied to the default task with a
title-only update. -/
theorem updateBlock_present_merges_witness :
    lookupId initBlocks "default-task" = some
      { id := "default-task", type := BlockType.task, parentId := "default-workspace",
        createdAt := 0, updatedAt := 0, title := "Inbox",
        description := "Default task for all new items",
        isSelected := true, isComplete := false } ∧
    lookupId (updateBlock initBlocks "default-task" titleUpdate 5) "default-task" =
      some (applyUpdates
        { id := "default-task", type := BlockType.task, parentId := "default-workspace",
          createdAt := 0, updatedAt := 0, title := "Inbox",
          description := "Default task for all new items",
          isSelected := true, isComplete := false } titleUpdate 5) :=
  ⟨by decide,
   (updateBlock_present_merges initBlocks "default-task" titleUpdate 5 _ (by decide)).1⟩

/-! ### C9 — deleteBlock -/

/-- C9: `deleteBlock id` removes exactly the record at `id`; every other
entry is kept verbatim (so child blocks of a deleted task stay in the store
with their `parentId` now dangling — no cascade delete), and deleting an
absent id is an idempotent no-op. -/
theorem deleteBlock_removes_exactly (blocks : BlockStore) (id : String) :
    lookupId (deleteBlock blocks id) id = none ∧
    (∀ k b, k ≠ id → ((k, b) ∈ blocks ↔ (k, b) ∈ deleteBlock blocks id)) ∧
    deleteBlock blocks id = blocks.filter (fun kv => decide (¬ kv.1 = id)) ∧
    (lookupId blocks id = none → deleteBlock blocks id = blocks) := by
  refine ⟨?_, ?_, rfl, ?_⟩
  · have hf : (deleteBlock blocks id).find? (fun kv => decide (kv.1 = id)) = none := by
      rw [List.find?_eq_none]
      intro kv hkv
      have := (List.mem_filter.mp hkv).2
      simp only [decide_eq_true_eq] at this ⊢
      exact this
    simp [lookupId, hf]
  · intro k b hk
    constructor
    · intro hm
      exact List.mem_filter.mpr ⟨hm, by simpa using hk⟩
    · intro hm
      exact (List.mem_filter.mp hm).1
  · intro h
    apply List.filter_eq_self.mpr
    intro kv hkv
    simp only [decide_eq_true_eq]
    intro hkid
    have hs : blocks.find? (fun kv => decide (kv.1 = id)) = none := by
      cases hfind : blocks.find? (fun kv => decide (kv.1 = id)) with
      | none => rfl
      | some e =>
        rw [lookupId, hfind] at h
        simp at h
    have := List.find?_eq_none.mp hs kv hkv
    simp [hkid] at this

/-- A concrete store with a task and a child todo, used to exhibit the
orphaning behaviour. -/
def orphanDemoStore : BlockStore :=
  [("t1",
    { id := "t1", type := BlockType.task, parentId := "default-workspace",
      createdAt := 1, updatedAt := 1, title := "T", description := "",
      isSelected := false, isComplete := false }),
   ("d1",
    { id := "d1", type := BlockType.todo, parentId := "t1",
      createdAt := 2, updatedAt := 2, title := "child", description := "",
      isSelected := false, isComplete := false })]

/-- C9 witness: deleting the task `t1` removes it, keeps the child todo
(whose `parentId` still reads `t1`, now dangling), and deleting a missing id
is a no-op. -/
theorem deleteBlock_removes_exactly_witness :
    lookupId (deleteBlock orphanDemoStore "t1") "t1" = none ∧
    (("d1",
      { id := "d1", type := BlockType.todo, parentId := "t1",
        createdAt := 2, updatedAt := 2, title := "child", description := "",
        isSelected := false, isComplete := false }) ∈ deleteBlock orphanDemoStore "t1") ∧
    deleteBlock orphanDemoStore "absent" = orphanDemoStore := by
  refine ⟨(deleteBlock_removes_exactly orphanDemoStore "t1").1, ?_, ?_⟩
  · exact ((deleteBlock_removes_exactly orphanDemoStore "t1").2.1 "d1" _ (by decide)).mp
      (by decide)
  · exact (deleteBlock_removes_exactly orphanDemoStore "absent").2.2.2 (by decide)

/-! ### Stable-sort lemmas -/

theorem orderedInsert_append_single {α : Type _} (r : α → α → Prop) [DecidableRel r]
    (a x : α) (h : r a x) :
    ∀ s : List α, (s ++ [x]).orderedInsert r a = s.orderedInsert r a ++ [x]
  | [] => by simp [List.orderedInsert, h]
  | y :: s' => by
    by_cases hy : r a y
    · simp [List.orderedInsert, hy]
    · simp only [List.cons_append, List.orderedInsert, if_neg hy, List.append_eq]
      rw [orderedInsert_append_single r a x h s']

theorem insertionSort_append_single {α : Type _} (r : α → α → Prop) [DecidableRel r] (x : α) :
    ∀ l : List α, (∀ y ∈ l, r y x) → (l ++ [x]).insertionSort r = l.insertionSort r ++ [x]
  | [], _ => by simp
  | y :: l', h => by
    have hy : r y x := h y (List.mem_cons_self y l')
    have ih := insertionSort_append_single r x l' (fun z hz => h z (List.mem_cons_of_mem y hz))
    simp only [List.cons_append, List.insertionSort, List.append_eq]
    rw [ih]
    exact orderedInsert_append_single r y x hy _

/-! ### C2 — the children-of-parent projection -/

/-- The ordering asserted by the claim for `childrenOf`: ascending by the
(nonexistent) `order` field, ties by `createdAt` then `id`.  Since the
source `Block` has no `order` field, every comparison on it ties, so the
claimed ordering collapses to: `createdAt`, then `id` (ids compared
lexicographically through their character lists). -/
def claimedChildOrder : Block → Block → Prop := fun a b =>
  a.createdAt < b.createdAt ∨ (a.createdAt = b.createdAt ∧ a.id.data ≤ b.id.data)

instance : DecidableRel claimedChildOrder := fun a b =>
  inferInstanceAs (Decidable (a.createdAt < b.createdAt ∨
    (a.createdAt = b.createdAt ∧ a.id.data ≤ b.id.data)))

/-- The projection the claim describes: filter by parent, sort by the
claimed ordering (createdAt, then id). -/
def claimedChildrenOf (blocks : BlockStore) (parentId : String) : List Block :=
  ((blocks.map Prod.snd).filter (fun b => decide (b.parentId = parentId))).insertionSort
    claimedChildOrder

/-- A store exhibiting the tie-break difference: two blocks under parent
`p` with equal `createdAt`, inserted with ids in reverse alphabetical
order. -/
def tieStore : BlockStore :=
  [("b",
    { id := "b", type := BlockType.todo, parentId := "p",
      createdAt := 5, updatedAt := 5, title := "", description := "",
      isSelected := false, isComplete := false }),
   ("a",
    { id := "a", type := BlockType.todo, parentId := "p",
      createdAt := 5, updatedAt := 5, title := "", description := "",
      isSelected := false, isComplete := false })]

/-- C2 counterexample: the claim asserts that children are sorted by an
`order` field with ties broken by `createdAt` then `id`.  The source `Block`
has no `order` field, and on two blocks with equal `createdAt` the stable
sort keeps store insertion order, not id order: the projection yields ids
`[b, a]` while the claimed ordering demands `[a, b]`. -/
theorem blocksByParent_ignores_id_ties :
    (blocksByParent tieStore "p").map Block.id = ["b", "a"] ∧
    (claimedChildrenOf tieStore "p").map Block.id = ["a", "b"] ∧
    blocksByParent tieStore "p" ≠ claimedChildrenOf tieStore "p" := by
  refine ⟨by decide, by decide, by decide⟩

/-- C2 (amended): for every parent id P, the projection returns exactly the
blocks whose `parentId` equals P (a permutation of the filtered values, so
membership is preserved), sorted ascending by `createdAt`.  No `order` field
exists; equal-`createdAt` blocks keep their store insertion order (stable
sort) with no id tie-break. -/
theorem blocksByParent_filter_sorted (blocks : BlockStore) (pid : String) :
    (blocksByParent blocks pid).Perm
      ((blocks.map Prod.snd).filter (fun b => decide (b.parentId = pid))) ∧
    List.Sorted byCreatedAt (blocksByParent blocks pid) ∧
    (∀ b : Block, b ∈ blocksByParent blocks pid ↔
      (b ∈ blocks.map Prod.snd ∧ b.parentId = pid)) := by
  refine ⟨List.perm_insertionSort byCreatedAt _, List.sorted_insertionSort byCreatedAt _, ?_⟩
  intro b
  rw [blocksByParent, List.mem_insertionSort, List.mem_filter]
  simp [decide_eq_true_eq]

/-! ### C6 — addBlock -/

/-- C6: with a fresh id and a creation time at or after the creation times
of the current siblings (the wall clock does not run backwards), `addBlock`
always succeeds: the new record is stored with `createdAt = updatedAt = now`,
every pre-existing record is untouched, and the new entity appears last in
the ordered sibling sequence of its parent. -/
theorem addBlock_appends_last (blocks : BlockStore) (nb : NewBlock) (id : String) (now : Nat)
    (hfresh : lookupId blocks id = none)
    (hclock : ∀ b ∈ blocks.map Prod.snd, b.parentId = nb.parentId → b.createdAt ≤ now) :
    lookupId (addBlock blocks nb id now) id = some (mkBlock nb id now) ∧
    (mkBlock nb id now).createdAt = now ∧
    (mkBlock nb id now).updatedAt = now ∧
    (∀ k, k ≠ id → lookupId (addBlock blocks nb id now) k = lookupId blocks k) ∧
    blocksByParent (addBlock blocks nb id now) nb.parentId =
      blocksByParent blocks nb.parentId ++ [mkBlock nb id now] := by
  have happ : addBlock blocks nb id now = blocks ++ [(id, mkBlock nb id now)] := by
    simp [addBlock, setKey, hfresh]
  refine ⟨?_, rfl, rfl, ?_, ?_⟩
  · rw [happ, lookupId_append, hfresh]
    simp [lookupId_cons, Option.orElse]
  · intro k hk
    rw [happ, lookupId_append]
    have h1 : lookupId [(id, mkBlock nb id now)] k = none := by
      rw [lookupId_cons, if_neg (fun h : id = k => hk h.symm)]
      rfl
    cases hcase : lookupId blocks k with
    | none => simp [Option.orElse, h1]
    | some v => simp [Option.orElse]
  · rw [happ]
    unfold blocksByParent
    rw [List.map_append, List.filter_append]
    have hmk : ((([(id, mkBlock nb id now)] : BlockStore).map Prod.snd).filter
        (fun b => decide (b.parentId = nb.parentId))) = [mkBlock nb id now] := by
      simp [mkBlock]
    rw [hmk]
    apply insertionSort_append_single
    intro y hy
    have hmem := List.mem_filter.mp hy
    have hpar : y.parentId = nb.parentId := by
      have := hmem.2
      simpa [decide_eq_true_eq] using this
    exact hclock y hmem.1 hpar

/-- C6 witness: adding a todo under the default workspace parent appends it
after the default task in the sibling sequence. -/
theorem addBlock_appends_last_witness :
    lookupId initBlocks "new-1" = (none : Option Block) ∧
    blocksByParent
        (addBlock initBlocks
          { type := BlockType.task, parentId := "default-workspace", title := "T2",
            description := "", isSelected := false, isComplete := false } "new-1" 7)
        "default-workspace" =
      blocksByParent initBlocks "default-workspace" ++
        [mkBlock
          { type := BlockType.task, parentId := "default-workspace", title := "T2",
            description := "", isSelected := false, isComplete := false } "new-1" 7] :=
  ⟨by decide,
   (addBlock_appends_last initBlocks
      { type := BlockType.task, parentId := "default-workspace", title := "T2",
        description := "", isSelected := false, isComplete := false } "new-1" 7
      (by decide) (by decide)).2.2.2.2⟩

/-! ### C10 — derived selected views -/

theorem find?_some_split {α : Type _} {p : α → Bool} :
    ∀ {l : List α} {x : α}, l.find? p = some x →
      ∃ l₁ l₂, l = l₁ ++ x :: l₂ ∧ p x = true ∧ ∀ y ∈ l₁, p y = false := by
  intro l
  induction l with
  | nil => intro x h; simp at h
  | cons a t ih =>
    intro x h
    by_cases hp : p a
    · rw [List.find?_cons_of_pos _ hp] at h
      cases h
      exact ⟨[], t, rfl, hp, by simp⟩
    · rw [List.find?_cons_of_neg _ hp] at h
      obtain ⟨l₁, l₂, hsplit, hx, hl₁⟩ := ih h
      refine ⟨a :: l₁, l₂, by rw [hsplit, List.cons_append], hx, ?_⟩
      intro y hy
      rcases List.mem_cons.mp hy with rfl | hy'
      · exact Bool.eq_false_iff.mpr hp
      · exact hl₁ y hy'

/-- C10: `selectedWorkspace` and `selectedTask` are `Array.find` over the
store values (in enumeration order): they return the first entity with
`isSelected = true` and return none (`undefined` in the source, despite the
non-null type assertions) when nothing is selected; `blocksByWorkSpace`
returns the empty list in that none case. -/
theorem selected_views_first_or_none (ws : WorkspaceStore) (blocks : BlockStore) :
    (selectedWorkspace ws = none ↔ ∀ w ∈ ws.map Prod.snd, w.isSelected = false) ∧
    (∀ w, selectedWorkspace ws = some w →
      w.isSelected = true ∧
      ∃ l₁ l₂, ws.map Prod.snd = l₁ ++ w :: l₂ ∧ ∀ v ∈ l₁, v.isSelected = false) ∧
    (selectedTask blocks = none ↔ ∀ b ∈ tasksOf blocks, b.isSelected = false) ∧
    (∀ b, selectedTask blocks = some b →
      b.isSelected = true ∧
      ∃ l₁ l₂, tasksOf blocks = l₁ ++ b :: l₂ ∧ ∀ v ∈ l₁, v.isSelected = false) ∧
    (selectedWorkspace ws = none → blocksByWorkSpace ws blocks = []) := by
  refine ⟨?_, ?_, ?_, ?_, ?_⟩
  · rw [selectedWorkspace, List.find?_eq_none]
    constructor
    · intro h w hw
      simpa using h w hw
    · intro h w hw
      simp [h w hw]
  · intro w h
    obtain ⟨l₁, l₂, hsplit, hw, hl₁⟩ := find?_some_split h
    exact ⟨hw, l₁, l₂, hsplit, fun v hv => hl₁ v hv⟩
  · rw [selectedTask, List.find?_eq_none]
    constructor
    · intro h b hb
      simpa using h b hb
    · intro h b hb
      simp [h b hb]
  · intro b h
    obtain ⟨l₁, l₂, hsplit, hb, hl₁⟩ := find?_some_split h
    exact ⟨hb, l₁, l₂, hsplit, fun v hv => hl₁ v hv⟩
  · intro h
    rw [blocksByWorkSpace, h]

/-- A workspace store with nothing selected, for the C10 witness. -/
def noneSelectedWorkspaces : WorkspaceStore :=
  [("w1",
    { id := "w1", title := "W", description := "", isSelected := false,
      createdAt := 0, updatedAt := 0 })]

/-- C10 witness: with no workspace selected the derived view yields none and
`blocksByWorkSpace` yields the empty list; after deleting the default task
the selected-task view also yields none. -/
theorem selected_views_first_or_none_witness :
    selectedWorkspace noneSelectedWorkspaces = none ∧
    blocksByWorkSpace noneSelectedWorkspaces initBlocks = [] ∧
    selectedTask (deleteBlock initBlocks "default-task") = none := by
  have h := selected_views_first_or_none noneSelectedWorkspaces initBlocks
  have hnone : selectedWorkspace noneSelectedWorkspaces = none := h.1.mpr (by decide)
  have h2 := selected_views_first_or_none noneSelectedWorkspaces
    (deleteBlock initBlocks "default-task")
  exact ⟨hnone, h.2.2.2.2 hnone, h2.2.2.1.mpr (by decide)⟩

/-! ### C8 — the drop path never mutates the entity store -/

/-- The drag-session UI store (`draggedPosition`, a `writable<number|null>`
imported by Draggable.svelte; its defining store module is not among the
source files, its uses show it holds the dragged position or null). -/
structure UIDrag where
  draggedPosition : Option Int
deriving DecidableEq, Repr

/-- The full application state seen by the drag components: the two entity
stores plus the transient drag store. -/
structure AppState where
  workspaces : WorkspaceStore
  blocks : BlockStore
  drag : UIDrag
deriving DecidableEq, Repr

/-- The payload carried by a drag: `{blockId, position}`
(`e.dataTransfer.setData` in Draggable.svelte, parsed in DropZone.svelte). -/
structure DropPayload where
  blockId : String
  position : Int
deriving DecidableEq, Repr

/-- `handleDrop` (DropZone.svelte lines 10-19): parses the payload and
dispatches a `drop` event `{blockId, position}` with the zone position; it
touches no store.  No component in the repository registers a listener for
this event, so the dispatch has no further effect on the stores. -/
def handleDrop (s : AppState) (payload : DropPayload) (zonePos : Int) :
    AppState × DropPayload :=
  (s, { blockId := payload.blockId, position := zonePos })

/-- `handleDragEnd` (Draggable.svelte lines 37-52): clears the visual
classes, resets `draggedPosition` to null and removes the global listener;
the entity stores are untouched. -/
def handleDragEnd (s : AppState) : AppState :=
  { s with drag := { draggedPosition := none } }

/-- The complete drop-then-drag-end pipeline of one gesture. -/
def dropThenDragEnd (s : AppState) (payload : DropPayload) (zonePos : Int) : AppState :=
  handleDragEnd (handleDrop s payload zonePos).1

/-- C8: dropping a dragged block — at any position, in particular at its own
current position — leaves the entity stores unchanged: no block record is
created, removed or modified (hence every updatedAt is unchanged), and the
session ends with the drag store cleared. -/
theorem drop_leaves_stores_unchanged (s : AppState) (payload : DropPayload) (zonePos : Int) :
    (dropThenDragEnd s payload zonePos).blocks = s.blocks ∧
    (dropThenDragEnd s payload zonePos).workspaces = s.workspaces ∧
    (dropThenDragEnd s payload zonePos).drag.draggedPosition = none ∧
    (∀ k, lookupId (dropThenDragEnd s payload zonePos).blocks k = lookupId s.blocks k) :=
  ⟨rfl, rfl, rfl, fun _ => rfl⟩

/-! ### Counting lemmas for the selection invariant -/

theorem two_le_length_of_mem_of_mem {α : Type _} {x y : α} {l : List α}
    (hx : x ∈ l) (hy : y ∈ l) (hne : x ≠ y) : 2 ≤ l.length := by
  induction l with
  | nil => cases hx
  | cons a t ih =>
    rcases List.mem_cons.mp hx with rfl | hx2
    · rcases List.mem_cons.mp hy with rfl | hy2
      · exact absurd rfl hne
      · have h1 : 1 ≤ t.length := List.length_pos.mpr (List.ne_nil_of_mem hy2)
        simpa [List.length_cons] using Nat.succ_le_succ h1
    · have h1 : 1 ≤ t.length := List.length_pos.mpr (List.ne_nil_of_mem hx2)
      simpa [List.length_cons] using Nat.succ_le_succ h1

theorem eq_of_filter_length_le_one {α : Type _} {P : α → Bool} {l : List α}
    (h : (l.filter P).length ≤ 1) {x y : α}
    (hx : x ∈ l) (hPx : P x = true) (hy : y ∈ l) (hPy : P y = true) : x = y := by
  by_contra hne
  have h2 : 2 ≤ (l.filter P).length :=
    two_le_length_of_mem_of_mem (List.mem_filter.mpr ⟨hx, hPx⟩)
      (List.mem_filter.mpr ⟨hy, hPy⟩) hne
  omega

theorem filter_length_le_one_of_key {β : Type _} {P : (String × β) → Bool}
    {l : List (String × β)} (hnd : (l.map Prod.fst).Nodup) (k : String)
    (hkey : ∀ e ∈ l, P e = true → e.1 = k) : (l.filter P).length ≤ 1 := by
  induction l with
  | nil => simp
  | cons a t ih =>
    rw [List.map_cons, List.nodup_cons] at hnd
    by_cases hPa : P a = true
    · have hak : a.1 = k := hkey a (List.mem_cons_self a t) hPa
      have ht : t.filter P = [] := by
        rw [List.filter_eq_nil_iff]
        intro e he hPe
        have hek : e.1 = k := hkey e (List.mem_cons_of_mem a he) hPe
        exact hnd.1 (by rw [hak, ← hek]; exact List.mem_map_of_mem Prod.fst he)
      simp [List.filter_cons, hPa, ht]
    · have hrest := ih hnd.2 (fun e he hPe => hkey e (List.mem_cons_of_mem a he) hPe)
      simpa [List.filter_cons, hPa] using hrest

theorem length_filter_le_of_imp {α : Type _} {P Q : α → Bool}
    (h : ∀ a, P a = true → Q a = true) (l : List α) :
    (l.filter P).length ≤ (l.filter Q).length := by
  induction l with
  | nil => simp
  | cons a t ih =>
    by_cases hPa : P a = true
    · simp [List.filter_cons, hPa, h a hPa]
      omega
    · by_cases hQa : Q a = true
      · simp [List.filter_cons, hPa, hQa]
        omega
      · simpa [List.filter_cons, hPa, hQa] using ih

theorem mem_updateAt {β : Type _} {l : List (String × β)} {k : String} {f : β → β}
    {e : String × β} (he : e ∈ updateAt l k f) :
    ∃ e₀ ∈ l, e = if e₀.1 = k then (e₀.1, f e₀.2) else e₀ := by
  obtain ⟨e₀, he₀, heq⟩ := List.mem_map.mp he
  exact ⟨e₀, he₀, heq.symm⟩

/-! ### C1 — selection exclusivity -/

/-- An entry of the workspace store that reports itself selected. -/
def wsSelPred (e : String × Workspace) : Bool := e.2.isSelected

/-- Number of selected workspaces. -/
def wsSelCount (ws : WorkspaceStore) : Nat := (ws.filter wsSelPred).length

/-- An entry of the block store that is a task and reports itself
selected. -/
def taskSelPred (e : String × Block) : Bool :=
  decide (e.2.type = BlockType.task) && e.2.isSelected

/-- Number of selected tasks (across all workspaces). -/
def taskSelCount (blocks : BlockStore) : Nat := (blocks.filter taskSelPred).length

/-- Number of selected tasks whose parent is the given workspace. -/
def selTaskPerWs (blocks : BlockStore) (wid : String) : Nat :=
  (blocks.filter (fun e => taskSelPred e && decide (e.2.parentId = wid))).length

theorem map_fst_selectWorkspace (ws : WorkspaceStore) (wid : String) :
    (selectWorkspace ws wid).map Prod.fst = ws.map Prod.fst := by
  unfold selectWorkspace updateAt
  rw [List.map_map, List.map_map]
  induction ws with
  | nil => rfl
  | cons a t ih =>
    rw [List.map_cons, List.map_cons, ih]
    by_cases h1 : a.1 = wid <;> by_cases h2 : a.2.isSelected <;> simp [h1, h2]

theorem selectWorkspace_selected_key (ws : WorkspaceStore) (wid : String) :
    ∀ e ∈ selectWorkspace ws wid, wsSelPred e = true → e.1 = wid := by
  unfold selectWorkspace updateAt
  rw [List.map_map]
  induction ws with
  | nil => intro e he; simp at he
  | cons a t ih =>
    intro e he hsel
    rw [List.map_cons] at he
    rcases List.mem_cons.mp he with heq | hmem
    · subst heq
      by_cases h1 : a.1 = wid
      · simp [h1]
      · by_cases h2 : a.2.isSelected
        · simp [wsSelPred, h1, h2] at hsel
        · simp [wsSelPred, h1, h2] at hsel
    · exact ih e hmem hsel

theorem wsSelCount_selectWorkspace (ws : WorkspaceStore) (wid : String)
    (hnd : (ws.map Prod.fst).Nodup) : wsSelCount (selectWorkspace ws wid) ≤ 1 :=
  filter_length_le_one_of_key
    (by rw [map_fst_selectWorkspace]; exact hnd) wid
    (selectWorkspace_selected_key ws wid)

theorem map_fst_updateBlock (blocks : BlockStore) (id : String) (u : BlockUpdate) (now : Nat) :
    (updateBlock blocks id u now).map Prod.fst = blocks.map Prod.fst := by
  unfold updateBlock
  cases h : lookupId blocks id with
  | none => rfl
  | some v => exact map_fst_updateAt blocks id _

theorem ids_match_updateBlock {blocks : BlockStore} {id : String} {u : BlockUpdate}
    {now : Nat} (hids : ∀ e ∈ blocks, e.2.id = e.1) (hu : u.id = none) :
    ∀ e ∈ updateBlock blocks id u now, e.2.id = e.1 := by
  unfold updateBlock
  cases h : lookupId blocks id with
  | none => exact hids
  | some v =>
    intro e he
    obtain ⟨e₀, he₀, heq⟩ := mem_updateAt he
    by_cases h0 : e₀.1 = id
    · rw [heq, if_pos h0]
      simp [applyUpdates, hu]
      exact hids e₀ he₀
    · rw [heq, if_neg h0]
      exact hids e₀ he₀

theorem map_fst_handleTaskSelect (blocks : BlockStore) (tid : String) (now : Nat) :
    (handleTaskSelect blocks tid now).map Prod.fst = blocks.map Prod.fst := by
  unfold handleTaskSelect
  cases hsel : selectedTask blocks with
  | none => exact map_fst_updateBlock blocks tid _ now
  | some prev =>
    by_cases heq : prev.id = tid
    · simp [heq]
    · simp only [if_neg heq]
      rw [map_fst_updateBlock, map_fst_updateBlock]

theorem ids_match_handleTaskSelect {blocks : BlockStore} {tid : String} {now : Nat}
    (hids : ∀ e ∈ blocks, e.2.id = e.1) :
    ∀ e ∈ handleTaskSelect blocks tid now, e.2.id = e.1 := by
  unfold handleTaskSelect
  cases hsel : selectedTask blocks with
  | none => exact ids_match_updateBlock hids rfl
  | some prev =>
    by_cases heq : prev.id = tid
    · simpa [heq] using hids
    · simp only [if_neg heq]
      exact ids_match_updateBlock (ids_match_updateBlock hids rfl) rfl

theorem taskSelCount_handleTaskSelect (blocks : BlockStore) (tid : String) (now : Nat)
    (hcount : taskSelCount blocks ≤ 1)
    (hids : ∀ e ∈ blocks, e.2.id = e.1)
    (hnd : (blocks.map Prod.fst).Nodup) :
    taskSelCount (handleTaskSelect blocks tid now) ≤ 1 := by
  unfold handleTaskSelect
  cases hsel : selectedTask blocks with
  | none =>
    have hnosel : ∀ e ∈ blocks, taskSelPred e = false := by
      intro e he
      cases hP : taskSelPred e
      · rfl
      · exfalso
        have htask : e.2.type = BlockType.task ∧ e.2.isSelected = true := by
          have := hP
          simp [taskSelPred, Bool.and_eq_true, decide_eq_true_eq] at this
          exact this
        have hmem : e.2 ∈ tasksOf blocks :=
          List.mem_filter.mpr ⟨List.mem_map_of_mem Prod.snd he, by simp [htask.1]⟩
        have := List.find?_eq_none.mp hsel e.2 hmem
        simp [htask.2] at this
    cases hlk : lookupId blocks tid with
    | none =>
      unfold updateBlock
      rw [hlk]
      have : blocks.filter taskSelPred = [] := List.filter_eq_nil_iff.mpr
        (fun e he => by simp [hnosel e he])
      simp [taskSelCount, this]
    | some v =>
      unfold updateBlock
      rw [hlk]
      apply filter_length_le_one_of_key (by rw [map_fst_updateAt]; exact hnd) tid
      intro e he hP
      obtain ⟨e₀, he₀, heq⟩ := mem_updateAt he
      by_cases h0 : e₀.1 = tid
      · rw [heq, if_pos h0]
        exact h0
      · rw [heq, if_neg h0] at hP
        rw [hnosel e₀ he₀] at hP
        cases hP
  | some prev =>
    have hPrevSel : prev.isSelected = true := by
      have := List.find?_some hsel
      simpa using this
    have hPrevMemT : prev ∈ tasksOf blocks := List.mem_of_find?_eq_some hsel
    have hPrevTask : prev.type = BlockType.task := by
      have := (List.mem_filter.mp hPrevMemT).2
      simpa [decide_eq_true_eq] using this
    obtain ⟨ep, hep, hep2⟩ := List.mem_map.mp (List.mem_filter.mp hPrevMemT).1
    have hkey : ep.1 = prev.id := by
      rw [← hep2]
      exact (hids ep hep).symm
    have hPredEp : taskSelPred ep = true := by
      simp [taskSelPred, hep2, hPrevTask, hPrevSel]
    by_cases heq : prev.id = tid
    · simp only [if_pos heq]
      exact hcount
    · simp only [if_neg heq]
      have hlk1 : ∃ v, lookupId blocks prev.id = some v := by
        rw [lookupId]
        have : (blocks.find? (fun kv => decide (kv.1 = prev.id))).isSome := by
          rw [List.find?_isSome]
          exact ⟨ep, hep, by simp [hkey]⟩
        obtain ⟨w, hw⟩ := Option.isSome_iff_exists.mp this
        exact ⟨w.2, by rw [hw]; rfl⟩
      obtain ⟨pv, hpv⟩ := hlk1
      have hb1 : updateBlock blocks prev.id deselectUpdate now =
          updateAt blocks prev.id (fun b => applyUpdates b deselectUpdate now) := by
        unfold updateBlock
        rw [hpv]
      rw [hb1]
      have hb1nosel : ∀ e ∈ updateAt blocks prev.id
          (fun b => applyUpdates b deselectUpdate now), taskSelPred e = false := by
        intro e he
        obtain ⟨e₀, he₀, heq₀⟩ := mem_updateAt he
        by_cases h0 : e₀.1 = prev.id
        · rw [heq₀, if_pos h0]
          simp [taskSelPred, applyUpdates, deselectUpdate]
        · rw [heq₀, if_neg h0]
          cases hP : taskSelPred e₀
          · rfl
          · exfalso
            have huni : e₀ = ep := eq_of_filter_length_le_one hcount he₀ hP hep hPredEp
            exact h0 (huni ▸ hkey)
      have hnd1 : ((updateAt blocks prev.id
          (fun b => applyUpdates b deselectUpdate now)).map Prod.fst).Nodup := by
        rw [map_fst_updateAt]
        exact hnd
      cases hlk2 : lookupId (updateAt blocks prev.id
          (fun b => applyUpdates b deselectUpdate now)) tid with
      | none =>
        unfold updateBlock
        rw [hlk2]
        have : (updateAt blocks prev.id
            (fun b => applyUpdates b deselectUpdate now)).filter taskSelPred = [] :=
          List.filter_eq_nil_iff.mpr (fun e he => by simp [hb1nosel e he])
        simp [taskSelCount, this]
      | some v =>
        unfold updateBlock
        rw [hlk2]
        apply filter_length_le_one_of_key (by rw [map_fst_updateAt]; exact hnd1) tid
        intro e he hP
        obtain ⟨e₀, he₀, heq₀⟩ := mem_updateAt he
        by_cases h0 : e₀.1 = tid
        · rw [heq₀, if_pos h0]
          exact h0
        · rw [heq₀, if_neg h0] at hP
          rw [hb1nosel e₀ he₀] at hP
          cases hP

/-- The inductive invariant maintained by the selection handlers: at most
one selected workspace, at most one selected task globally, record id
fields agree with their store keys, and store keys are duplicate-free (JS
object keys are unique). -/
def StoreInv (s : AppStores) : Prop :=
  wsSelCount s.workspaces ≤ 1 ∧
  taskSelCount s.blocks ≤ 1 ∧
  (∀ e ∈ s.blocks, e.2.id = e.1) ∧
  (s.blocks.map Prod.fst).Nodup ∧
  (s.workspaces.map Prod.fst).Nodup

theorem storeInv_selStep (s : AppStores) (op : SelOp) (h : StoreInv s) :
    StoreInv (selStep s op) := by
  obtain ⟨h1, h2, h3, h4, h5⟩ := h
  cases op with
  | selW wid =>
    exact ⟨wsSelCount_selectWorkspace _ _ h5, h2, h3, h4,
      by simpa [selStep, map_fst_selectWorkspace] using h5⟩
  | selT tid now =>
    exact ⟨h1, taskSelCount_handleTaskSelect _ _ _ h2 h3 h4,
      ids_match_handleTaskSelect h3,
      by simpa [selStep, map_fst_handleTaskSelect] using h4, h5⟩

theorem storeInv_runSel (ops : List SelOp) :
    ∀ s : AppStores, StoreInv s → StoreInv (runSel s ops) := by
  induction ops with
  | nil => intro s h; exact h
  | cons op rest ih => intro s h; exact ih _ (storeInv_selStep s op h)

/-- C1: starting from the initial store state (one default workspace and
one default task, each selected), after every finite sequence of
workspace-selection and task-selection calls at most one workspace reports
`isSelected = true`, and for each workspace at most one task whose
`parentId` is that workspace reports `isSelected = true`. -/
theorem selection_exclusive_after_any_sequence (ops : List SelOp) :
    wsSelCount (runSel initState ops).workspaces ≤ 1 ∧
    ∀ wid : String, selTaskPerWs (runSel initState ops).blocks wid ≤ 1 := by
  have hinit : StoreInv initState := by
    refine ⟨by decide, by decide, by decide, by decide, by decide⟩
  have hinv := storeInv_runSel ops initState hinit
  refine ⟨hinv.1, ?_⟩
  intro wid
  have hmono := length_filter_le_of_imp
    (fun e (hP : (taskSelPred e && decide (e.2.parentId = wid)) = true) =>
      ((Bool.and_eq_true _ _).mp hP).1)
    (runSel initState ops).blocks
  exact Nat.le_trans hmono hinv.2.1

/-! ### C7 — drag tracking geometry (Draggable.svelte, handleGlobalDragOver) -/

/-- A rendered draggable element as seen by `handleGlobalDragOver`: its
`data-position` attribute and its bounding rectangle (top and height, in
the same client coordinates as the pointer). -/
structure Elem where
  position : Int
  top : Rat
  height : Rat
deriving DecidableEq, Repr

/-- The vertical center `rect.top + rect.height / 2` of an element. -/
def centerY (e : Elem) : Rat := e.top + e.height / 2

/-- `Math.abs`. -/
def ratAbs (x : Rat) : Rat := if x < 0 then -x else x

/-- The distance `Math.abs(e.clientY - centerY)` used by the tracking
loop. -/
def distTo (y : Rat) (e : Elem) : Rat := ratAbs (y - centerY e)

/-- The scanning loop of `handleGlobalDragOver` (lines 60-73): walk the
elements in document order keeping the current best; replace it only on a
strictly smaller distance (the source compares `distance < minDistance`),
so the first element attaining the minimum wins ties.  The source starts
from `minDistance = Infinity`, which the first element always beats; here
the first element is the initial accumulator, which is the same thing. -/
def nearestAux (y : Rat) (best : Elem) (bestDist : Rat) : List Elem → Elem
  | [] => best
  | e :: rest =>
      if distTo y e < bestDist then nearestAux y e (distTo y e) rest
      else nearestAux y best bestDist rest

/-- The nearest draggable under the pointer, if any element exists. -/
def findNearest (y : Rat) : List Elem → Option Elem
  | [] => none
  | e :: rest => some (nearestAux y e (distTo y e) rest)

/-- The insertion side shown by the feedback classes:
`drag-over-top` = insert before, `drag-over-bottom` = insert after. -/
inductive Side
  | before
  | after
deriving DecidableEq, Repr

/-- The feedback decision of `handleGlobalDragOver` (lines 75-87): the
nearest element gets a marker unless its position equals the dragged
position; `e.clientY < midpoint` marks the top border (insert before),
otherwise the bottom border (insert after). -/
def dragIndicator (elems : List Elem) (y : Rat) (draggedPos : Int) : Option (Elem × Side) :=
  match findNearest y elems with
  | none => none
  | some n =>
      if n.position = draggedPos then none
      else some (n, if y < centerY n then Side.before else Side.after)

theorem nearestAux_spec (y : Rat) :
    ∀ (l : List Elem) (b : Elem),
      (nearestAux y b (distTo y b) l = b ∧ ∀ e ∈ l, distTo y b ≤ distTo y e) ∨
      (∃ l₁ l₂, l = l₁ ++ nearestAux y b (distTo y b) l :: l₂ ∧
        distTo y (nearestAux y b (distTo y b) l) < distTo y b ∧
        (∀ e ∈ l₁, distTo y (nearestAux y b (distTo y b) l) < distTo y e) ∧
        (∀ e ∈ l₂, distTo y (nearestAux y b (distTo y b) l) ≤ distTo y e)) := by
  intro l
  induction l with
  | nil =>
    intro b
    left
    exact ⟨rfl, by simp⟩
  | cons e rest ih =>
    intro b
    by_cases hc : distTo y e < distTo y b
    · rw [nearestAux, if_pos hc]
      rcases ih e with ⟨hn, hall⟩ | ⟨r₁, r₂, hsplit, hlt, h₁, h₂⟩
      · right
        refine ⟨[], rest, by simp [hn], by rw [hn]; exact hc, by simp, ?_⟩
        rw [hn]
        exact hall
      · right
        refine ⟨e :: r₁, r₂, ?_, lt_trans hlt hc, ?_, h₂⟩
        · rw [List.cons_append, ← hsplit]
        · intro x hx
          rcases List.mem_cons.mp hx with rfl | hx2
          · exact hlt
          · exact h₁ x hx2
    · rw [nearestAux, if_neg hc]
      push_neg at hc
      rcases ih b with ⟨hn, hall⟩ | ⟨r₁, r₂, hsplit, hlt, h₁, h₂⟩
      · left
        refine ⟨hn, ?_⟩
        intro x hx
        rcases List.mem_cons.mp hx with rfl | hx2
        · exact hc
        · exact hall x hx2
      · right
        refine ⟨e :: r₁, r₂, ?_, hlt, ?_, h₂⟩
        · rw [List.cons_append, ← hsplit]
        · intro x hx
          rcases List.mem_cons.mp hx with rfl | hx2
          · exact lt_of_lt_of_le hlt hc
          · exact h₁ x hx2

/-- C7: on every pointer move, the tracking selects — among the candidate
elements, in document order — the first element whose vertical center is
nearest to the pointer Y by absolute distance (strictly closer than every
earlier element, at least as close as every later one).  If that nearest
element carries the dragged position no indicator is shown; otherwise the
indicator is insert-before exactly when the pointer Y is strictly above the
element vertical midpoint, and insert-after otherwise. -/
theorem drag_tracking_nearest_and_side (elems : List Elem) (y : Rat) (draggedPos : Int)
    (hne : elems ≠ []) :
    ∃ n l₁ l₂, findNearest y elems = some n ∧
      elems = l₁ ++ n :: l₂ ∧
      (∀ e ∈ l₁, distTo y n < distTo y e) ∧
      (∀ e ∈ l₂, distTo y n ≤ distTo y e) ∧
      (∀ e ∈ elems, distTo y n ≤ distTo y e) ∧
      (n.position = draggedPos → dragIndicator elems y draggedPos = none) ∧
      (n.position ≠ draggedPos →
        ∃ s, dragIndicator elems y draggedPos = some (n, s) ∧
          (s = Side.before ↔ y < centerY n)) := by
  cases elems with
  | nil => exact absurd rfl hne
  | cons e rest =>
    have hfind : findNearest y (e :: rest) = some (nearestAux y e (distTo y e) rest) := rfl
    have hmain : ∃ l₁ l₂, (e :: rest : List Elem) =
        l₁ ++ nearestAux y e (distTo y e) rest :: l₂ ∧
        (∀ x ∈ l₁, distTo y (nearestAux y e (distTo y e) rest) < distTo y x) ∧
        (∀ x ∈ l₂, distTo y (nearestAux y e (distTo y e) rest) ≤ distTo y x) := by
      rcases nearestAux_spec y rest e with ⟨hn, hall⟩ | ⟨r₁, r₂, hsplit, hlt, h₁, h₂⟩
      · refine ⟨[], rest, by simp [hn], by simp, ?_⟩
        rw [hn]
        exact hall
      · refine ⟨e :: r₁, r₂, by rw [List.cons_append, ← hsplit], ?_, h₂⟩
        intro x hx
        rcases List.mem_cons.mp hx with rfl | hx2
        · exact hlt
        · exact h₁ x hx2
    obtain ⟨l₁, l₂, hsplit, h₁, h₂⟩ := hmain
    refine ⟨nearestAux y e (distTo y e) rest, l₁, l₂, hfind, hsplit, h₁, h₂, ?_, ?_, ?_⟩
    · intro x hx
      rw [hsplit] at hx
      rcases List.mem_append.mp hx with hx1 | hx1
      · exact le_of_lt (h₁ x hx1)
      · rcases List.mem_cons.mp hx1 with rfl | hx2
        · exact le_refl _
        · exact h₂ x hx2
    · intro hpos
      rw [dragIndicator, hfind]
      simp [hpos]
    · intro hpos
      rw [dragIndicator, hfind]
      simp only [if_neg hpos]
      by_cases hy : y < centerY (nearestAux y e (distTo y e) rest)
      · exact ⟨Side.before, by rw [if_pos hy], by simp [hy]⟩
      · refine ⟨Side.after, by rw [if_neg hy], ?_⟩
        constructor
        · intro hs
          cases hs
        · intro hs
          exact absurd hs hy

/-- C7 witness: two stacked elements of height 10 at tops 0 and 10, pointer
at y = 3, dragged position 5 (neither element): the first element (center 5)
is nearest and the pointer is above its midpoint, so the indicator is
insert-before on it. -/
theorem drag_tracking_nearest_and_side_witness :
    ([⟨0, 0, 10⟩, ⟨1, 10, 10⟩] : List Elem) ≠ [] ∧
    (∃ n l₁ l₂, findNearest 3 ([⟨0, 0, 10⟩, ⟨1, 10, 10⟩] : List Elem) = some n ∧
      ([⟨0, 0, 10⟩, ⟨1, 10, 10⟩] : List Elem) = l₁ ++ n :: l₂ ∧
      (∀ e ∈ l₁, distTo 3 n < distTo 3 e) ∧
      (∀ e ∈ l₂, distTo 3 n ≤ distTo 3 e) ∧
      (∀ e ∈ ([⟨0, 0, 10⟩, ⟨1, 10, 10⟩] : List Elem), distTo 3 n ≤ distTo 3 e) ∧
      (n.position = 5 → dragIndicator [⟨0, 0, 10⟩, ⟨1, 10, 10⟩] 3 5 = none) ∧
      (n.position ≠ 5 →
        ∃ s, dragIndicator [⟨0, 0, 10⟩, ⟨1, 10, 10⟩] 3 5 = some (n, s) ∧
          (s = Side.before ↔ (3 : Rat) < centerY n))) ∧
    dragIndicator [⟨0, 0, 10⟩, ⟨1, 10, 10⟩] 3 5 = some (⟨0, 0, 10⟩, Side.before) := by
  refine ⟨by simp, drag_tracking_nearest_and_side [⟨0, 0, 10⟩, ⟨1, 10, 10⟩] 3 5 (by simp), ?_⟩
  have h1 : ¬ (distTo 3 (⟨1, 10, 10⟩ : Elem) < distTo 3 (⟨0, 0, 10⟩ : Elem)) := by
    norm_num [distTo, centerY, ratAbs]
  have hfind : findNearest 3 ([⟨0, 0, 10⟩, ⟨1, 10, 10⟩] : List Elem) =
      some (⟨0, 0, 10⟩ : Elem) := by
    rw [findNearest, nearestAux, if_neg h1]
    rfl
  rw [dragIndicator, hfind]
  norm_num [centerY]

/-! ### C3 — OrderAssignment (spec-modelled)

No reorder / OrderAssignment code exists under src/: the drop events
dispatched by DropZone.svelte have no registered consumer, and the source
`Block` has no `order` field.  The definitions in this namespace are
modelled from the spec (section 4.5) and the claim is settled against
them. -/

namespace SpecModel

/-- Modelled from the spec: a sibling record as assumed by section 4.5
OrderAssignment, carrying the explicit `order` field of sections 3 and 4
(absent from the source data model). -/
structure SBlock where
  id : String
  order : Nat
deriving DecidableEq, Repr

/-- Modelled from the spec: the sibling ordering used by
`DerivedViewEngine.childrenOf`, ascending by `order`. -/
def byOrder : SBlock → SBlock → Prop := fun a b => a.order ≤ b.order

instance : DecidableRel byOrder := fun a b => Nat.decLe a.order b.order

instance : IsTotal SBlock byOrder := ⟨fun a b => Nat.le_total a.order b.order⟩

instance : IsTrans SBlock byOrder := ⟨fun _ _ _ h h2 => Nat.le_trans h h2⟩

/-- Modelled from the spec: `childrenOf` restricted to one parent, i.e. the
ordered sibling sequence: sort ascending by `order`. -/
def childrenOf (sibs : List SBlock) : List SBlock := sibs.insertionSort byOrder

/-- Modelled from the spec (section 4.5, absent from src/):
`reorder(draggedId, targetIndex)` removes the dragged sibling from the
current sequence, reinserts it at the target index (clamped to the valid
range), and reassigns `order` values 0..N-1 to the whole sequence in one
batch. -/
def reorder (sibs : List SBlock) (draggedId : String) (targetIndex : Nat) : List SBlock :=
  match sibs.find? (fun b => decide (b.id = draggedId)) with
  | none => sibs
  | some d =>
      let removed := sibs.filter (fun b => decide (¬ b.id = draggedId))
      let arranged := List.insertIdx (min targetIndex removed.length) d removed
      arranged.enum.map (fun p => { p.2 with order := p.1 })

theorem length_filter_ne_id {l : List SBlock} (hnd : (l.map SBlock.id).Nodup)
    {d : SBlock} (hd : d ∈ l) :
    (l.filter (fun b => decide (¬ b.id = d.id))).length = l.length - 1 := by
  induction l with
  | nil => cases hd
  | cons a t ih =>
    rw [List.map_cons, List.nodup_cons] at hnd
    rcases List.mem_cons.mp hd with rfl | hd2
    · have hkeep : t.filter (fun b => decide (¬ b.id = d.id)) = t := by
        rw [List.filter_eq_self]
        intro b hb
        simp only [decide_eq_true_eq]
        intro hbid
        exact hnd.1 (by rw [← hbid]; exact List.mem_map_of_mem SBlock.id hb)
      simp only [List.filter_cons]
      rw [if_neg (by simp), hkeep]
      simp
    · have hane : ¬ a.id = d.id := by
        intro h
        exact hnd.1 (by rw [h]; exact List.mem_map_of_mem SBlock.id hd2)
      have ht1 : 1 ≤ t.length := List.length_pos.mpr (List.ne_nil_of_mem hd2)
      have := ih hnd.2 hd2
      simp only [List.filter_cons, decide_eq_true_eq]
      rw [if_pos (by simpa using hane)]
      simp only [List.length_cons, this]
      omega

theorem map_insertIdx {α β : Type _} (f : α → β) :
    ∀ (n : Nat) (x : α) (l : List α),
      (List.insertIdx n x l).map f = List.insertIdx n (f x) (l.map f) := by
  intro n
  induction n with
  | zero => intro x l; simp [List.insertIdx_zero]
  | succ n ih =>
    intro x l
    cases l with
    | nil => simp [List.insertIdx_succ_nil]
    | cons a t => simp [List.insertIdx_succ_cons, ih]

/-- C3: `reorder(draggedId, targetIndex)` removes the dragged sibling from
the ordered sequence, reinserts it at `targetIndex`, and renumbers the
whole sequence 0..N-1 with no gaps or duplicates — so the renumbered
sequence is already the `childrenOf` order.  (Modelled from the spec;
OrderAssignment is absent from the source.) -/
theorem reorder_removes_reinserts_renumbers (sibs : List SBlock) (draggedId : String)
    (t : Nat) (d : SBlock)
    (hfind : sibs.find? (fun b => decide (b.id = draggedId)) = some d)
    (hnd : (sibs.map SBlock.id).Nodup)
    (ht : t ≤ sibs.length - 1) :
    (reorder sibs draggedId t).map SBlock.id =
      List.insertIdx t draggedId
        ((sibs.filter (fun b => decide (¬ b.id = draggedId))).map SBlock.id) ∧
    (reorder sibs draggedId t).map SBlock.order = List.range sibs.length ∧
    (reorder sibs draggedId t).length = sibs.length ∧
    childrenOf (reorder sibs draggedId t) = reorder sibs draggedId t := by
  have hdid : d.id = draggedId := by
    have := List.find?_some hfind
    simpa using this
  have hdmem : d ∈ sibs := List.mem_of_find?_eq_some hfind
  have hlen1 : 1 ≤ sibs.length := List.length_pos.mpr (List.ne_nil_of_mem hdmem)
  have hremoved : (sibs.filter (fun b => decide (¬ b.id = draggedId))).length =
      sibs.length - 1 := by
    rw [← hdid]
    exact length_filter_ne_id hnd hdmem
  have htr : t ≤ (sibs.filter (fun b => decide (¬ b.id = draggedId))).length := by
    rw [hremoved]; exact ht
  have hmin : min t (sibs.filter (fun b => decide (¬ b.id = draggedId))).length = t :=
    min_eq_left htr
  have hres : reorder sibs draggedId t =
      (List.insertIdx t d (sibs.filter (fun b => decide (¬ b.id = draggedId)))).enum.map
        (fun p => { p.2 with order := p.1 }) := by
    rw [reorder, hfind]
    simp only [hmin]
  have harl : (List.insertIdx t d
      (sibs.filter (fun b => decide (¬ b.id = draggedId)))).length = sibs.length := by
    rw [List.length_insertIdx t _ htr, hremoved]
    omega
  have hids : (reorder sibs draggedId t).map SBlock.id =
      List.insertIdx t draggedId
        ((sibs.filter (fun b => decide (¬ b.id = draggedId))).map SBlock.id) := by
    rw [hres, List.map_map]
    have hcomp : (SBlock.id ∘ fun p : Nat × SBlock => { p.2 with order := p.1 }) =
        (fun p : Nat × SBlock => p.2.id) := rfl
    rw [hcomp]
    have : (fun p : Nat × SBlock => p.2.id) = SBlock.id ∘ Prod.snd := rfl
    rw [this, ← List.map_map, List.enum_map_snd, map_insertIdx, hdid]
  have hords : (reorder sibs draggedId t).map SBlock.order = List.range sibs.length := by
    rw [hres, List.map_map]
    have hcomp : (SBlock.order ∘ fun p : Nat × SBlock => { p.2 with order := p.1 }) =
        Prod.fst := rfl
    rw [hcomp, List.enum_map_fst, harl]
  refine ⟨hids, hords, ?_, ?_⟩
  · have := congrArg List.length hords
    simpa using this
  · apply List.Sorted.insertionSort_eq
    rw [List.Sorted]
    have hp : ((reorder sibs draggedId t).map SBlock.order).Pairwise (· ≤ ·) := by
      rw [hords]
      exact List.pairwise_le_range sibs.length
    have hiff := @List.pairwise_map SBlock Nat SBlock.order (· ≤ ·) (reorder sibs draggedId t)
    exact hiff.mp hp

/-- C3 witness — Scenario A of the spec: siblings A(order 0), B(1), C(2);
`reorder(A, 2)` yields the sequence [B, C, A] with orders [0, 1, 2]. -/
theorem reorder_removes_reinserts_renumbers_witness :
    ([⟨"A", 0⟩, ⟨"B", 1⟩, ⟨"C", 2⟩] : List SBlock).find?
        (fun b => decide (b.id = "A")) = some ⟨"A", 0⟩ ∧
    (([⟨"A", 0⟩, ⟨"B", 1⟩, ⟨"C", 2⟩] : List SBlock).map SBlock.id).Nodup ∧
    2 ≤ ([⟨"A", 0⟩, ⟨"B", 1⟩, ⟨"C", 2⟩] : List SBlock).length - 1 ∧
    (reorder [⟨"A", 0⟩, ⟨"B", 1⟩, ⟨"C", 2⟩] "A" 2).map SBlock.order =
      List.range ([⟨"A", 0⟩, ⟨"B", 1⟩, ⟨"C", 2⟩] : List SBlock).length ∧
    childrenOf (reorder [⟨"A", 0⟩, ⟨"B", 1⟩, ⟨"C", 2⟩] "A" 2) =
      reorder [⟨"A", 0⟩, ⟨"B", 1⟩, ⟨"C", 2⟩] "A" 2 ∧
    (reorder [⟨"A", 0⟩, ⟨"B", 1⟩, ⟨"C", 2⟩] "A" 2).map SBlock.id = ["B", "C", "A"] ∧
    (reorder [⟨"A", 0⟩, ⟨"B", 1⟩, ⟨"C", 2⟩] "A" 2).map SBlock.order = [0, 1, 2] := by
  have h := reorder_removes_reinserts_renumbers [⟨"A", 0⟩, ⟨"B", 1⟩, ⟨"C", 2⟩] "A" 2
    ⟨"A", 0⟩ (by decide) (by decide) (by decide)
  exact ⟨by decide, by decide, by decide, h.2.1, h.2.2.2, by decide, by decide⟩

end SpecModel

end Didolog
